import Mathlib

/-!
Shallow embedding of the alg/enum sequence-operations library (src/main.js)
and proofs of the specified properties.

JavaScript values flowing through the library are not inspected by most
operations; the only value inspections the embedded operations perform are
the nullish-coalescing operator in the padEnd branch of chunk and the
strict-equality test against undefined in reduce and scan.  We therefore
model JS values with a small inductive universe that distinguishes the
cases those tests care about, and keep value-agnostic operations (window,
the zip cores, the short-circuiting traversals) polymorphic.
-/

set_option autoImplicit false

namespace Enum

universe u

/-- A JavaScript value, as far as the library distinguishes them. -/
inductive JSVal where
  | undef
  | null
  | bool (b : Bool)
  | num (n : Int)
  | str (s : String)
  deriving Repr, DecidableEq

/-- JS nullish test: true exactly for undefined and null, the two values
the nullish-coalescing operator replaces. -/
def JSVal.isNullish : JSVal → Bool
  | .undef => true
  | .null => true
  | _ => false

/-! ## chunk (src/main.js lines 43-69)

The for-of loop pushes each element onto a running chunk and flushes it
into the result whenever it reaches the requested size; the strategy only
decides what happens to the leftover chunk after the loop. -/

/-- The chunking loop: walk the input, accumulating the current chunk and
flushing it whenever it reaches the given size.  Returns the flushed
chunks together with the leftover current chunk. -/
def chunkCore (size : Nat) : List JSVal → List JSVal → List (List JSVal) × List JSVal
  | [], current => ([], current)
  | e :: rest, current =>
    let cur := current ++ [e]
    if cur.length = size then
      let r := chunkCore size rest []
      (cur :: r.1, r.2)
    else
      chunkCore size rest cur

/-- chunk: size is validated first (JS compares the number against 0), the
loop collects full chunks, and the strategy string decides the fate of a
nonempty leftover.  The padEnd branch models the JS sequence
current.length = size (which extends the array with holes that read back
as undefined) followed by Array.from(current, (e) => e ?? fillValue),
whose nullish coalescing replaces undefined and null alike. -/
def chunk (s : List JSVal) (size : Int) (strategy : String) (fillValue : JSVal) :
    Except String (List (List JSVal)) :=
  if size ≤ 0 then .error "Cannot yield chunks of size <= 0"
  else
    let n := size.toNat
    let r := chunkCore n s []
    if strategy = "keepEnd" ∧ r.2 ≠ [] then .ok (r.1 ++ [r.2])
    else if strategy = "padEnd" ∧ r.2 ≠ [] then
      .ok (r.1 ++ [(r.2 ++ List.replicate (n - r.2.length) JSVal.undef).map
        (fun e => if e.isNullish then fillValue else e)])
    else if strategy = "strict" ∧ r.2 ≠ [] then .error "Incomplete chunk"
    else .ok r.1

/-! Basic facts about the chunking loop. -/

theorem chunkCore_join (size : Nat) :
    ∀ (s current : List JSVal),
      (chunkCore size s current).1.flatten ++ (chunkCore size s current).2 = current ++ s := by
  intro s
  induction s with
  | nil => intro current; simp [chunkCore]
  | cons e rest ih =>
    intro current
    by_cases h : (current ++ [e]).length = size
    · simp only [chunkCore, h, if_pos]
      have := ih []
      simp only [List.flatten, List.cons_append, List.append_assoc] at this ⊢
      simp [this]
    · simp only [chunkCore, h, if_neg, not_false_iff]
      have := ih (current ++ [e])
      simpa using this

/-- On an input too short to fill a chunk, the loop flushes nothing and
everything stays in the current chunk. -/
theorem chunkCore_short (size : Nat) :
    ∀ (s current : List JSVal), current.length + s.length < size →
      chunkCore size s current = ([], current ++ s) := by
  intro s
  induction s with
  | nil => intro current _; simp [chunkCore]
  | cons e rest ih =>
    intro current h
    have h2 : current.length + (rest.length + 1) < size := by
      simpa [List.length_cons] using h
    have hne : (current ++ [e]).length ≠ size := by
      simp only [List.length_append, List.length_singleton]
      omega
    simp only [chunkCore, hne, if_neg, not_false_iff]
    have harg : (current ++ [e]).length + rest.length < size := by
      simp only [List.length_append, List.length_singleton]
      omega
    have := ih (current ++ [e]) harg
    simp [this]

/-- Starting from an empty current chunk on an input with at least one full
chunk, the loop flushes the first size elements and recurses on the rest. -/
theorem chunkCore_flush (size : Nat) :
    ∀ (s current : List JSVal), current.length < size →
      size ≤ current.length + s.length →
      chunkCore size s current =
        ((current ++ s.take (size - current.length)) ::
            (chunkCore size (s.drop (size - current.length)) []).1,
          (chunkCore size (s.drop (size - current.length)) []).2) := by
  intro s
  induction s with
  | nil =>
    intro current hc hs
    simp only [List.length_nil, Nat.add_zero] at hs
    omega
  | cons e rest ih =>
    intro current hc hs
    by_cases h : (current ++ [e]).length = size
    · have hk : size - current.length = 1 := by
        simp only [List.length_append, List.length_singleton] at h; omega
      simp only [chunkCore, h, if_pos, hk]
      simp
    · have hlt : (current ++ [e]).length < size := by
        simp only [List.length_append, List.length_singleton] at h ⊢
        simp only [List.length_cons] at hs
        omega
      simp only [chunkCore, h, if_neg, not_false_iff]
      have hs2 : size ≤ (current ++ [e]).length + rest.length := by
        simp only [List.length_append, List.length_singleton]
        simp only [List.length_cons] at hs
        omega
      have := ih (current ++ [e]) hlt hs2
      have hk : size - (current ++ [e]).length = size - current.length - 1 := by
        simp; omega
      have hk1 : 1 ≤ size - current.length := by omega
      have hsucc : size - current.length = (size - current.length - 1) + 1 := by omega
      have htake : (e :: rest).take (size - current.length)
          = e :: rest.take (size - current.length - 1) := by
        rw [hsucc, List.take_succ_cons]
        simp
      have hdrop : (e :: rest).drop (size - current.length)
          = rest.drop (size - current.length - 1) := by
        rw [hsucc, List.drop_succ_cons]
        simp
      rw [htake, hdrop, this, hk]
      simp [List.append_assoc]

/-- Auxiliary bounded induction: the leftover chunk is the trailing
remainder of the input, of length equal to the remainder of the length
modulo the chunk size. -/
theorem chunkCore_leftover_aux (size : Nat) (hpos : 0 < size) :
    ∀ (N : Nat) (s : List JSVal), s.length ≤ N →
      (chunkCore size s []).2 = s.drop (s.length - s.length % size) ∧
      (chunkCore size s []).2.length = s.length % size := by
  intro N
  induction N with
  | zero =>
    intro s hs
    have hnil : s = [] := List.length_eq_zero.mp (Nat.le_zero.mp hs)
    subst hnil
    simp [chunkCore]
  | succ N ih =>
    intro s hs
    by_cases hlt : s.length < size
    · have h0 : ([] : List JSVal).length + s.length < size := by simpa using hlt
      rw [chunkCore_short size s [] h0]
      have hmod : s.length % size = s.length := Nat.mod_eq_of_lt hlt
      simp [hmod]
    · push_neg at hlt
      have h1 : ([] : List JSVal).length < size := by simpa using hpos
      have h2 : size ≤ ([] : List JSVal).length + s.length := by simpa using hlt
      rw [chunkCore_flush size s [] h1 h2]
      simp only [List.length_nil, Nat.sub_zero, List.nil_append]
      have hlen : (s.drop size).length ≤ N := by
        simp only [List.length_drop]; omega
      obtain ⟨ih1, ih2⟩ := ih (s.drop size) hlen
      have hm : (s.drop size).length = s.length - size := by
        simp [List.length_drop]
      have hmod : (s.length - size) % size = s.length % size := by
        conv_rhs =>
          rw [show s.length = (s.length - size) + size from (Nat.sub_add_cancel hlt).symm]
        rw [Nat.add_mod_right]
      constructor
      · rw [ih1, List.drop_drop, hm, hmod]
        have hqle : s.length % size ≤ s.length - size := by
          rw [← hmod]; exact Nat.mod_le _ _
        congr 1
        omega
      · rw [ih2, hm, hmod]

theorem chunkCore_leftover (size : Nat) (hpos : 0 < size) (s : List JSVal) :
    (chunkCore size s []).2 = s.drop (s.length - s.length % size) ∧
    (chunkCore size s []).2.length = s.length % size :=
  chunkCore_leftover_aux size hpos s.length s (Nat.le_refl _)

/-- C9: concatenating the groups of chunk with the keepEnd strategy yields
the original sequence for every chunk size greater than zero. -/
theorem chunk_keepEnd_flatten (s : List JSVal) (n : Nat) (hn : 0 < n) :
    ∃ r, chunk s (n : Int) "keepEnd" JSVal.undef = .ok r ∧ r.flatten = s := by
  have hsz : ¬ ((n : Int) ≤ 0) := by
    simp only [not_le]
    exact_mod_cast hn
  have hjoin := chunkCore_join n s []
  simp only [List.nil_append] at hjoin
  unfold chunk
  rw [if_neg hsz]
  simp only [Int.toNat_natCast]
  by_cases hleft : (chunkCore n s []).2 = []
  · refine ⟨(chunkCore n s []).1, ?_, ?_⟩
    · rw [if_neg (by simp [hleft]), if_neg (by simp [hleft]), if_neg (by simp [hleft])]
    · rw [hleft, List.append_nil] at hjoin
      exact hjoin
  · refine ⟨(chunkCore n s []).1 ++ [(chunkCore n s []).2], ?_, ?_⟩
    · simp [hleft]
    · rw [List.flatten_append]
      simpa using hjoin

/-- C9 witness: flattening chunk([1,2,3,4,5], 2, keepEnd) recovers the
input. -/
theorem chunk_keepEnd_flatten_witness :
    0 < 2 ∧ ∃ r,
      chunk [JSVal.num 1, JSVal.num 2, JSVal.num 3, JSVal.num 4, JSVal.num 5]
        (2 : Nat) "keepEnd" JSVal.undef = .ok r ∧
      r.flatten = [JSVal.num 1, JSVal.num 2, JSVal.num 3, JSVal.num 4, JSVal.num 5] :=
  ⟨by decide,
    chunk_keepEnd_flatten
      [JSVal.num 1, JSVal.num 2, JSVal.num 3, JSVal.num 4, JSVal.num 5] 2 (by decide)⟩

/-- C2 counterexample: under padEnd a null element drawn from the input
does NOT appear unchanged in its slot of the trailing group; the nullish
coalescing in Array.from replaces it with the fill value.  chunk([null],
2, padEnd, 999) yields [[999, 999]], not [[null, 999]]. -/
theorem chunk_padEnd_null_counterexample :
    chunk [JSVal.null] 2 "padEnd" (JSVal.num 999)
        = .ok [[JSVal.num 999, JSVal.num 999]] ∧
    ([[JSVal.num 999, JSVal.num 999]] : List (List JSVal))
        ≠ [[JSVal.null, JSVal.num 999]] :=
  ⟨rfl, by decide⟩

/-- C2 (amended): under padEnd the trailing group (present exactly when
the length is not a multiple of the size) is extended to exactly size:
missing slots are filled with fillValue, and the elements drawn from the
input keep their slots unchanged except that null and undefined elements
are also replaced by fillValue. -/
theorem chunk_padEnd_spec (s : List JSVal) (size : Nat) (fill : JSVal)
    (hpos : 0 < size) (hq : s.length % size ≠ 0) :
    ∃ r g, chunk s (size : Int) "padEnd" fill = .ok (r ++ [g]) ∧
      g.length = size ∧
      g = (s.drop (s.length - s.length % size)).map
            (fun e => if e.isNullish then fill else e)
          ++ List.replicate (size - s.length % size) fill := by
  have hsz : ¬ ((size : Int) ≤ 0) := by
    simp only [not_le]
    exact_mod_cast hpos
  obtain ⟨hdrop, hlen⟩ := chunkCore_leftover size hpos s
  have hleft : (chunkCore size s []).2 ≠ [] := by
    intro hcon
    rw [hcon] at hlen
    exact hq hlen.symm
  unfold chunk
  rw [if_neg hsz]
  simp only [Int.toNat_natCast]
  refine ⟨(chunkCore size s []).1,
    ((chunkCore size s []).2
        ++ List.replicate (size - (chunkCore size s []).2.length) JSVal.undef).map
      (fun e => if e.isNullish then fill else e), ?_, ?_, ?_⟩
  · rw [if_neg (by simp [hleft]), if_pos (by simp [hleft])]
  · have hmodlt : s.length % size < size := Nat.mod_lt _ hpos
    simp only [List.length_map, List.length_append, List.length_replicate, hlen]
    omega
  · rw [List.map_append, List.map_replicate, hlen, hdrop]
    simp [JSVal.isNullish]

/-- C2 amended witness: chunk([1, null], 3, padEnd, 7) has trailing group
[7, 7, 7]: the drawn 1 is kept, the drawn null is replaced, the missing
slot is filled. -/
theorem chunk_padEnd_spec_witness :
    (0 < 3 ∧ [JSVal.num 1, JSVal.null].length % 3 ≠ 0) ∧
    ∃ r g, chunk [JSVal.num 1, JSVal.null] (3 : Nat) "padEnd" (JSVal.num 7)
        = .ok (r ++ [g]) ∧
      g.length = 3 ∧
      g = ([JSVal.num 1, JSVal.null].drop
              ([JSVal.num 1, JSVal.null].length
                - [JSVal.num 1, JSVal.null].length % 3)).map
            (fun e => if e.isNullish then JSVal.num 7 else e)
          ++ List.replicate (3 - [JSVal.num 1, JSVal.null].length % 3) (JSVal.num 7) :=
  ⟨⟨by decide, by decide⟩,
    chunk_padEnd_spec [JSVal.num 1, JSVal.null] 3 (JSVal.num 7) (by decide) (by decide)⟩

/-! ## zip (src/main.js lines 254-338)

Each strategy is a while(true) loop pulling one element from every
iterator per round.  The loops can only exit inside the per-iterator
for-loop (shortest) or through the exhaustion counters (longest, strict),
so with zero iterables the shortest and strict loops never exit.  We model
the loops with explicit fuel: a result of none means the loop ran out of
fuel no matter how much was provided, i.e. it does not terminate. -/

/-- One round of the shortest-strategy loop: pull one value from each
iterator in order; none as soon as some iterator is exhausted (the JS code
returns the accumulated result there, discarding the unfinished batch). -/
def pullRound {α : Type u} : List (List α) → Option (List α × List (List α))
  | [] => some ([], [])
  | [] :: _ => none
  | (x :: xs) :: rest =>
    match pullRound rest with
    | none => none
    | some (b, r) => some (x :: b, xs :: r)

/-- zipShortest with fuel. -/
def zipShortestF {α : Type u} : Nat → List (List α) → Option (List (List α))
  | 0, _ => none
  | fuel + 1, its =>
    match pullRound its with
    | none => some []
    | some (batch, rest) => (zipShortestF fuel rest).map (batch :: ·)

/-- One round of the longest-strategy loop: pull from each iterator,
substituting the fill value for exhausted ones and counting them. -/
def pullLongest {α : Type u} (fill : α) : List (List α) → List α × List (List α) × Nat
  | [] => ([], [], 0)
  | [] :: rest =>
    let r := pullLongest fill rest
    (fill :: r.1, [] :: r.2.1, r.2.2 + 1)
  | (x :: xs) :: rest =>
    let r := pullLongest fill rest
    (x :: r.1, xs :: r.2.1, r.2.2)

/-- zipLongest with fuel. -/
def zipLongestF {α : Type u} (fill : α) : Nat → List (List α) → Option (List (List α))
  | 0, _ => none
  | fuel + 1, its =>
    let r := pullLongest fill its
    if r.2.2 = its.length then some []
    else (zipLongestF fill fuel r.2.1).map (r.1 :: ·)

/-- One round of the strict-strategy loop: pull from each iterator,
collecting only the values of the non-exhausted ones and counting the
exhausted ones. -/
def pullStrict {α : Type u} : List (List α) → List α × List (List α) × Nat
  | [] => ([], [], 0)
  | [] :: rest =>
    let r := pullStrict rest
    (r.1, [] :: r.2.1, r.2.2 + 1)
  | (x :: xs) :: rest =>
    let r := pullStrict rest
    (x :: r.1, xs :: r.2.1, r.2.2)

/-- zipStrict with fuel; errors when some but not all iterators are
exhausted in a round. -/
def zipStrictF {α : Type u} : Nat → List (List α) → Option (Except String (List (List α)))
  | 0, _ => none
  | fuel + 1, its =>
    let r := pullStrict its
    if r.2.2 = 0 then
      (zipStrictF fuel r.2.1).map (fun res => res.map (r.1 :: ·))
    else if r.2.2 = its.length then some (.ok [])
    else some (.error "Zipped iterables of unequal length with strategy = strict")

/-- The options bundle zip recognises: a strategy name plus a fill value
(undefined in JS when the property is absent). -/
structure ZipOptions where
  strategy : String
  fillValue : JSVal

/-- JS template-literal coercion of the plain options object, as used in
the error message of the default switch branch. -/
def zipOptionsToString (_ : ZipOptions) : String := "[object Object]"

/-- zip dispatcher: with no options object the strategy defaults to
shortest; otherwise the switch on the strategy string selects the loop,
and the default branch raises an error that interpolates the whole
options object. -/
def zipJS (iterables : List (List JSVal)) (options : Option ZipOptions) (fuel : Nat) :
    Option (Except String (List (List JSVal))) :=
  let opts := match options with
    | some o => o
    | none => ⟨"shortest", JSVal.undef⟩
  if opts.strategy = "shortest" then (zipShortestF fuel iterables).map .ok
  else if opts.strategy = "longest" then
    (zipLongestF opts.fillValue fuel iterables).map .ok
  else if opts.strategy = "strict" then zipStrictF fuel iterables
  else some (.error ("Unrecognised strategy: \"" ++ zipOptionsToString opts ++ "\""))

/-! Non-termination of the shortest and strict loops on zero iterables. -/

theorem zipShortestF_nil {α : Type u} : ∀ fuel : Nat, zipShortestF (α := α) fuel [] = none := by
  intro fuel
  induction fuel with
  | zero => rfl
  | succ fuel ih => simp [zipShortestF, pullRound, ih]

theorem zipStrictF_nil {α : Type u} : ∀ fuel : Nat, zipStrictF (α := α) fuel [] = none := by
  intro fuel
  induction fuel with
  | zero => rfl
  | succ fuel ih => simp [zipStrictF, pullStrict, ih]

/-- C1: with zero data iterables, the default (shortest) strategy and the
strict strategy never terminate, whatever fuel the loop is given; only the
longest strategy terminates, with an empty result.  This refutes the claim
that the call terminates with an empty result under every strategy. -/
theorem zip_zero_iterables (fuel : Nat) :
    zipJS [] none fuel = none ∧
    zipJS [] (some ⟨"strict", JSVal.undef⟩) fuel = none ∧
    zipJS [] (some ⟨"longest", JSVal.undef⟩) (fuel + 1) = some (.ok []) := by
  refine ⟨?_, ?_, ?_⟩
  · simp [zipJS, zipShortestF_nil]
  · simp [zipJS, zipStrictF_nil]
  · simp [zipJS, zipLongestF, pullLongest]

/-! Length behaviour of the three zip loops on two iterables. -/

theorem zipShortestF_two {α : Type u} :
    ∀ (fuel : Nat) (a b : List α), min a.length b.length < fuel →
      ∃ r, zipShortestF fuel [a, b] = some r ∧ r.length = min a.length b.length := by
  intro fuel
  induction fuel with
  | zero => intro a b h; omega
  | succ fuel ih =>
    intro a b h
    match a, b with
    | [], b => exact ⟨[], by simp [zipShortestF, pullRound], by simp⟩
    | x :: xs, [] => exact ⟨[], by simp [zipShortestF, pullRound], by simp⟩
    | x :: xs, y :: ys =>
      obtain ⟨r, hr, hlen⟩ := ih xs ys (by simp at h; omega)
      refine ⟨[x, y] :: r, ?_, ?_⟩
      · simp [zipShortestF, pullRound, hr]
      · simp [hlen]; omega

theorem zipLongestF_two {α : Type u} (fill : α) :
    ∀ (fuel : Nat) (a b : List α), max a.length b.length < fuel →
      ∃ r, zipLongestF fill fuel [a, b] = some r ∧ r.length = max a.length b.length := by
  intro fuel
  induction fuel with
  | zero => intro a b h; omega
  | succ fuel ih =>
    intro a b h
    match a, b with
    | [], [] => exact ⟨[], by simp [zipLongestF, pullLongest], by simp⟩
    | [], y :: ys =>
      obtain ⟨r, hr, hlen⟩ := ih [] ys (by simp at h ⊢; omega)
      refine ⟨[fill, y] :: r, ?_, ?_⟩
      · simp [zipLongestF, pullLongest, hr]
      · simp at hlen ⊢; omega
    | x :: xs, [] =>
      obtain ⟨r, hr, hlen⟩ := ih xs [] (by simp at h ⊢; omega)
      refine ⟨[x, fill] :: r, ?_, ?_⟩
      · simp [zipLongestF, pullLongest, hr]
      · simp at hlen ⊢; omega
    | x :: xs, y :: ys =>
      obtain ⟨r, hr, hlen⟩ := ih xs ys (by simp at h ⊢; omega)
      refine ⟨[x, y] :: r, ?_, ?_⟩
      · simp [zipLongestF, pullLongest, hr]
      · simp at hlen ⊢; omega

theorem zipStrictF_two_eq {α : Type u} :
    ∀ (fuel : Nat) (a b : List α), a.length = b.length → a.length < fuel →
      ∃ r, zipStrictF fuel [a, b] = some (.ok r) := by
  intro fuel
  induction fuel with
  | zero => intro a b _ h; omega
  | succ fuel ih =>
    intro a b heq h
    match a, b with
    | [], [] => exact ⟨[], by simp [zipStrictF, pullStrict]⟩
    | [], y :: ys => simp at heq
    | x :: xs, [] => simp at heq
    | x :: xs, y :: ys =>
      obtain ⟨r, hr⟩ := ih xs ys (by simpa using heq) (by simp at h; omega)
      refine ⟨[x, y] :: r, ?_⟩
      simp [zipStrictF, pullStrict, hr, Except.map]

theorem zipStrictF_two_ne {α : Type u} :
    ∀ (fuel : Nat) (a b : List α), a.length ≠ b.length → min a.length b.length < fuel →
      zipStrictF fuel [a, b]
        = some (.error "Zipped iterables of unequal length with strategy = strict") := by
  intro fuel
  induction fuel with
  | zero => intro a b _ h; omega
  | succ fuel ih =>
    intro a b hne h
    match a, b with
    | [], [] => simp at hne
    | [], y :: ys => simp [zipStrictF, pullStrict]
    | x :: xs, [] => simp [zipStrictF, pullStrict]
    | x :: xs, y :: ys =>
      have := ih xs ys (by simp at hne ⊢; omega) (by simp at h; omega)
      simp [zipStrictF, pullStrict, this, Except.map]

/-- C4: through the zip dispatcher, for two finite iterables and enough
fuel for the loops to run to completion, the shortest strategy returns a
result of length min, the longest strategy one of length max, and the
strict strategy raises an error exactly when the lengths differ. -/
theorem zip_length_spec (a b : List JSVal) (x : JSVal) (fuel : Nat)
    (hf : max a.length b.length < fuel) :
    (∃ r, zipJS [a, b] (some ⟨"shortest", x⟩) fuel = some (.ok r) ∧
      r.length = min a.length b.length) ∧
    (∃ r, zipJS [a, b] (some ⟨"longest", x⟩) fuel = some (.ok r) ∧
      r.length = max a.length b.length) ∧
    ((∃ e, zipJS [a, b] (some ⟨"strict", x⟩) fuel = some (.error e)) ↔
      a.length ≠ b.length) := by
  refine ⟨?_, ?_, ?_⟩
  · obtain ⟨r, hr, hlen⟩ := zipShortestF_two fuel a b (by omega)
    exact ⟨r, by simp [zipJS, hr], hlen⟩
  · obtain ⟨r, hr, hlen⟩ := zipLongestF_two x fuel a b hf
    exact ⟨r, by simp [zipJS, hr], hlen⟩
  · constructor
    · rintro ⟨e, he⟩
      intro heq
      obtain ⟨r, hr⟩ := zipStrictF_two_eq fuel a b heq (by omega)
      rw [show zipJS [a, b] (some ⟨"strict", x⟩) fuel = zipStrictF fuel [a, b] by
        simp [zipJS]] at he
      rw [hr] at he
      simp at he
    · intro hne
      refine ⟨"Zipped iterables of unequal length with strategy = strict", ?_⟩
      rw [show zipJS [a, b] (some ⟨"strict", x⟩) fuel = zipStrictF fuel [a, b] by
        simp [zipJS]]
      exact zipStrictF_two_ne fuel a b hne (by omega)

/-- C4 witness at a = [1,2,3], b = [4,5], fill 0, fuel 10. -/
theorem zip_length_spec_witness :
    max ([JSVal.num 1, JSVal.num 2, JSVal.num 3] : List JSVal).length
        ([JSVal.num 4, JSVal.num 5] : List JSVal).length < 10 ∧
    ((∃ r, zipJS [[JSVal.num 1, JSVal.num 2, JSVal.num 3], [JSVal.num 4, JSVal.num 5]]
        (some ⟨"shortest", JSVal.num 0⟩) 10 = some (.ok r) ∧
      r.length = min ([JSVal.num 1, JSVal.num 2, JSVal.num 3] : List JSVal).length
        ([JSVal.num 4, JSVal.num 5] : List JSVal).length) ∧
    (∃ r, zipJS [[JSVal.num 1, JSVal.num 2, JSVal.num 3], [JSVal.num 4, JSVal.num 5]]
        (some ⟨"longest", JSVal.num 0⟩) 10 = some (.ok r) ∧
      r.length = max ([JSVal.num 1, JSVal.num 2, JSVal.num 3] : List JSVal).length
        ([JSVal.num 4, JSVal.num 5] : List JSVal).length) ∧
    ((∃ e, zipJS [[JSVal.num 1, JSVal.num 2, JSVal.num 3], [JSVal.num 4, JSVal.num 5]]
        (some ⟨"strict", JSVal.num 0⟩) 10 = some (.error e)) ↔
      ([JSVal.num 1, JSVal.num 2, JSVal.num 3] : List JSVal).length
        ≠ ([JSVal.num 4, JSVal.num 5] : List JSVal).length)) :=
  ⟨by decide,
    zip_length_spec [JSVal.num 1, JSVal.num 2, JSVal.num 3] [JSVal.num 4, JSVal.num 5]
      (JSVal.num 0) 10 (by decide)⟩

/-- C3 counterexample: chunk called with the unrecognized strategy name
"bogus" raises no error at all; it silently returns the full chunks just
like dropEnd, discarding the trailing element.  This refutes the claim
that every chunk call with an unrecognized strategy raises an error. -/
theorem chunk_unknown_strategy_counterexample :
    chunk [JSVal.num 1, JSVal.num 2, JSVal.num 3] 2 "bogus" JSVal.undef
      = .ok [[JSVal.num 1, JSVal.num 2]] :=
  rfl

/-- C3 (amended): zip with an unrecognized strategy raises an error, but
its message interpolates the whole options object, which stringifies to
the fixed text [object Object] for every strategy name, so the message
does not name the bad value; chunk with an unrecognized strategy raises
no error and behaves exactly like dropEnd. -/
theorem unknown_strategy_spec (strat : String) (fv : JSVal)
    (its : List (List JSVal)) (fuel : Nat) (s : List JSVal) (size : Int)
    (h1 : strat ≠ "shortest") (h2 : strat ≠ "longest") (h3 : strat ≠ "strict")
    (h4 : strat ≠ "keepEnd") (h5 : strat ≠ "padEnd") :
    zipJS its (some ⟨strat, fv⟩) fuel
        = some (.error "Unrecognised strategy: \"[object Object]\"") ∧
    chunk s size strat fv = chunk s size "dropEnd" fv := by
  constructor
  · simp [zipJS, h1, h2, h3, zipOptionsToString]
  · unfold chunk
    by_cases hsz : size ≤ 0
    · rw [if_pos hsz, if_pos hsz]
    · rw [if_neg hsz, if_neg hsz]
      simp [h3, h4, h5]

/-- C3 amended witness at strategy "bogus". -/
theorem unknown_strategy_spec_witness :
    ("bogus" ≠ "shortest" ∧ "bogus" ≠ "longest" ∧ "bogus" ≠ "strict" ∧
      "bogus" ≠ "keepEnd" ∧ "bogus" ≠ "padEnd") ∧
    (zipJS [[JSVal.num 1]] (some ⟨"bogus", JSVal.undef⟩) 5
        = some (.error "Unrecognised strategy: \"[object Object]\"") ∧
    chunk [JSVal.num 1, JSVal.num 2, JSVal.num 3] 2 "bogus" JSVal.undef
        = chunk [JSVal.num 1, JSVal.num 2, JSVal.num 3] 2 "dropEnd" JSVal.undef) :=
  ⟨⟨by decide, by decide, by decide, by decide, by decide⟩,
    unknown_strategy_spec "bogus" JSVal.undef [[JSVal.num 1]] 5
      [JSVal.num 1, JSVal.num 2, JSVal.num 3] 2
      (by decide) (by decide) (by decide) (by decide) (by decide)⟩

/-! ## reduce (src/main.js lines 160-166) and scan (lines 182-206)

reduce branches on initial === undefined; an omitted argument is undefined
in JS, so a single embedded function with a JSVal initial covers both call
shapes.  The no-seed branch is the Iterator.prototype.reduce helper, which
raises a TypeError on an empty iterator and otherwise seeds the
accumulator with the first element, with the counter passed to the reducer
starting at 1.  scan has the same undefined test written out in the
source. -/

/-- Indexed left fold: the loop body shared by the reduce helper and by
the for-of loop of scan, threading the counter passed to the callback. -/
def foldIdx (f : JSVal → JSVal → Nat → JSVal) : JSVal → List JSVal → Nat → JSVal
  | acc, [], _ => acc
  | acc, e :: rest, i => foldIdx f (f acc e i) rest (i + 1)

/-- reduce: the undefined test selects between the seedless helper and the
seeded fold. -/
def reduce (s : List JSVal) (f : JSVal → JSVal → Nat → JSVal) (initial : JSVal) :
    Except String JSVal :=
  if initial = JSVal.undef then
    match s with
    | [] => .error "Reduce of empty iterator with no initial value"
    | e :: rest => .ok (foldIdx f e rest 1)
  else .ok (foldIdx f initial s 0)

/-- The for-of loop of scan: push each new accumulator value and thread it
with the counter. -/
def scanLoop (f : JSVal → JSVal → Nat → JSVal) : JSVal → Nat → List JSVal → List JSVal
  | _, _, [] => []
  | current, i, e :: rest =>
    f current e i :: scanLoop f (f current e i) (i + 1) rest

/-- scan: with a defined initial value the loop starts from the seed at
counter 0; otherwise the first element is emitted as-is, seeds the
accumulator, and the loop starts at counter 1.  An empty input returns an
empty array in both branches. -/
def scan (s : List JSVal) (f : JSVal → JSVal → Nat → JSVal) (initial : JSVal) :
    List JSVal :=
  if initial ≠ JSVal.undef then scanLoop f initial 0 s
  else
    match s with
    | [] => []
    | e :: rest => e :: scanLoop f e 1 rest

/-- Example callback: numeric addition, (a, e) => a + e on numbers. -/
def addNum : JSVal → JSVal → Nat → JSVal := fun a e _ =>
  match a, e with
  | .num m, .num n => .num (m + n)
  | _, _ => JSVal.null

/-- Example callback: (a, e) => a + e.length on a numeric accumulator and
string elements. -/
def addLen : JSVal → JSVal → Nat → JSVal := fun a e _ =>
  match a, e with
  | .num m, .str t => .num (m + (t.length : Int))
  | _, _ => JSVal.null

/-- C6: reduce with no seed errors on an empty input and otherwise seeds
the accumulator with the first element, folding the rest from counter 1;
reduce with a supplied (defined) seed returns the seed unchanged on an
empty input and otherwise starts by combining the seed with the first
element at counter 0. -/
theorem reduce_spec (f : JSVal → JSVal → Nat → JSVal) (v e : JSVal)
    (s : List JSVal) (hv : v ≠ JSVal.undef) :
    reduce [] f JSVal.undef = .error "Reduce of empty iterator with no initial value" ∧
    reduce (e :: s) f JSVal.undef = .ok (foldIdx f e s 1) ∧
    reduce [] f v = .ok v ∧
    reduce (e :: s) f v = .ok (foldIdx f (f v e 0) s 1) := by
  refine ⟨rfl, rfl, ?_, ?_⟩
  · simp [reduce, hv, foldIdx]
  · simp [reduce, hv, foldIdx]

/-- C6 witness: summing without a seed and with seed 10. -/
theorem reduce_spec_witness :
    JSVal.num 10 ≠ JSVal.undef ∧
    (reduce [] addNum JSVal.undef
        = .error "Reduce of empty iterator with no initial value" ∧
    reduce [JSVal.num 1, JSVal.num 2] addNum JSVal.undef
        = .ok (foldIdx addNum (JSVal.num 1) [JSVal.num 2] 1) ∧
    reduce [] addNum (JSVal.num 10) = .ok (JSVal.num 10) ∧
    reduce [JSVal.num 1, JSVal.num 2] addNum (JSVal.num 10)
        = .ok (foldIdx addNum (addNum (JSVal.num 10) (JSVal.num 1) 0) [JSVal.num 2] 1)) :=
  ⟨by decide, reduce_spec addNum (JSVal.num 10) (JSVal.num 1) [JSVal.num 2] (by decide)⟩

/-- C7: scan without a seed emits the first element unmodified, seeds the
accumulator with it and numbers subsequent callback calls from 1; with a
defined seed the seed is not emitted and the loop starts at counter 0 with
the seed combined with the first element; empty inputs yield empty results
in both modes; and the two concrete examples of the spec hold. -/
theorem scan_spec (f : JSVal → JSVal → Nat → JSVal) (v e : JSVal)
    (s : List JSVal) (hv : v ≠ JSVal.undef) :
    scan [] f JSVal.undef = [] ∧
    scan [] f v = [] ∧
    scan (e :: s) f JSVal.undef = e :: scanLoop f e 1 s ∧
    scan (e :: s) f v = f v e 0 :: scanLoop f (f v e 0) 1 s ∧
    scan [JSVal.num 1, JSVal.num 2, JSVal.num 3, JSVal.num 4] addNum JSVal.undef
      = [JSVal.num 1, JSVal.num 3, JSVal.num 6, JSVal.num 10] ∧
    scan [JSVal.str "foo", JSVal.str "bar", JSVal.str "baz"] addLen (JSVal.num 0)
      = [JSVal.num 3, JSVal.num 6, JSVal.num 9] := by
  refine ⟨rfl, ?_, rfl, ?_, rfl, rfl⟩
  · simp [scan, hv, scanLoop]
  · simp [scan, hv, scanLoop]

/-- C7 witness with seed 5 and first element 2. -/
theorem scan_spec_witness :
    JSVal.num 5 ≠ JSVal.undef ∧
    (scan [] addNum JSVal.undef = [] ∧
    scan [] addNum (JSVal.num 5) = [] ∧
    scan [JSVal.num 2, JSVal.num 3] addNum JSVal.undef
        = JSVal.num 2 :: scanLoop addNum (JSVal.num 2) 1 [JSVal.num 3] ∧
    scan [JSVal.num 2, JSVal.num 3] addNum (JSVal.num 5)
        = addNum (JSVal.num 5) (JSVal.num 2) 0 ::
            scanLoop addNum (addNum (JSVal.num 5) (JSVal.num 2) 0) 1 [JSVal.num 3] ∧
    scan [JSVal.num 1, JSVal.num 2, JSVal.num 3, JSVal.num 4] addNum JSVal.undef
        = [JSVal.num 1, JSVal.num 3, JSVal.num 6, JSVal.num 10] ∧
    scan [JSVal.str "foo", JSVal.str "bar", JSVal.str "baz"] addLen (JSVal.num 0)
        = [JSVal.num 3, JSVal.num 6, JSVal.num 9]) :=
  ⟨by decide, scan_spec addNum (JSVal.num 5) (JSVal.num 2) [JSVal.num 3] (by decide)⟩

/-- C10: an explicit undefined seed takes the seedless code path in both
reduce and scan: reduce of an empty input with an undefined seed raises
the empty-reduction error rather than returning the seed, and scan with an
undefined seed emits the first element unmodified rather than combining
the seed with it, so undefined can never act as a seed. -/
theorem reduce_scan_undef_seed (f g : JSVal → JSVal → Nat → JSVal)
    (e : JSVal) (s : List JSVal) :
    reduce [] f JSVal.undef = .error "Reduce of empty iterator with no initial value" ∧
    (∀ w, reduce [] f JSVal.undef ≠ .ok w) ∧
    scan (e :: s) g JSVal.undef = e :: scanLoop g e 1 s ∧
    (scan (e :: s) g JSVal.undef).head? = some e := by
  refine ⟨rfl, ?_, rfl, ?_⟩
  · intro w h
    simp [reduce] at h
  · simp [scan]

/-! ## Short-circuiting traversals over a temperamental cursor
(all/any at src/main.js lines 27-33, find/findIndex at 115-128,
take/takeWhile at 208-224)

The input is modelled as a cursor holding its first N elements; any pull
past them raises.  Each embedded operation pulls elements one at a time in
source order, so reaching the empty available list on a pull yields an
error result.  For take we follow Iterator.prototype.take, whose helper
reports done once the limit is reached without pulling the underlying
iterator again. -/

/-- all over the poisoned cursor: iter.every(predicate) with the counter
passed to the predicate. -/
def allP {α : Type u} (p : α → Nat → Bool) : Nat → List α → Except String Bool
  | _, [] => .error "poison"
  | i, e :: rest => if p e i then allP p (i + 1) rest else .ok false

/-- any over the poisoned cursor: iter.some(predicate). -/
def anyP {α : Type u} (p : α → Nat → Bool) : Nat → List α → Except String Bool
  | _, [] => .error "poison"
  | i, e :: rest => if p e i then .ok true else anyP p (i + 1) rest

/-- find over the poisoned cursor: iter.find(predicate). -/
def findP {α : Type u} (p : α → Nat → Bool) : Nat → List α → Except String α
  | _, [] => .error "poison"
  | i, e :: rest => if p e i then .ok e else findP p (i + 1) rest

/-- findIndex over the poisoned cursor: the indexed for-of loop. -/
def findIndexP {α : Type u} (p : α → Nat → Bool) : Nat → List α → Except String Int
  | _, [] => .error "poison"
  | i, e :: rest => if p e i then .ok (i : Int) else findIndexP p (i + 1) rest

/-- take over the poisoned cursor: pulls exactly limit elements and then
stops without touching the cursor again. -/
def takeP {α : Type u} : Nat → List α → Except String (List α)
  | 0, _ => .ok []
  | _ + 1, [] => .error "poison"
  | limit + 1, e :: rest => (takeP limit rest).map (e :: ·)

/-- takeWhile over the poisoned cursor: stops pulling at the first element
that fails the predicate. -/
def takeWhileP {α : Type u} (p : α → Nat → Bool) : Nat → List α → Except String (List α)
  | _, [] => .error "poison"
  | i, e :: rest => if p e i then (takeWhileP p (i + 1) rest).map (e :: ·) else .ok []

theorem allP_ok {α : Type u} (p : α → Nat → Bool) :
    ∀ (s : List α) (i0 : Nat), (∃ j x, s[j]? = some x ∧ p x (i0 + j) = false) →
      (allP p i0 s).isOk := by
  intro s
  induction s with
  | nil =>
    rintro i0 ⟨j, x, hj, _⟩
    simp at hj
  | cons e rest ih =>
    rintro i0 ⟨j, x, hj, hp⟩
    by_cases hpe : p e i0
    · simp only [allP, hpe, if_pos]
      match j with
      | 0 =>
        simp only [List.getElem?_cons_zero, Option.some.injEq] at hj
        subst hj
        simp [hpe] at hp
      | j + 1 =>
        exact ih (i0 + 1) ⟨j, x, by simpa using hj, by rw [← hp]; ring_nf⟩
    · simp [allP, hpe, Except.isOk, Except.toBool]

theorem anyP_ok {α : Type u} (p : α → Nat → Bool) :
    ∀ (s : List α) (i0 : Nat), (∃ j x, s[j]? = some x ∧ p x (i0 + j) = true) →
      (anyP p i0 s).isOk := by
  intro s
  induction s with
  | nil =>
    rintro i0 ⟨j, x, hj, _⟩
    simp at hj
  | cons e rest ih =>
    rintro i0 ⟨j, x, hj, hp⟩
    by_cases hpe : p e i0
    · simp [anyP, hpe, Except.isOk, Except.toBool]
    · simp only [anyP, hpe, if_neg, Bool.false_eq_true, not_false_iff]
      match j with
      | 0 =>
        simp only [List.getElem?_cons_zero, Option.some.injEq] at hj
        subst hj
        simp only [Nat.add_zero] at hp
        simp [hp] at hpe
      | j + 1 =>
        exact ih (i0 + 1) ⟨j, x, by simpa using hj, by rw [← hp]; ring_nf⟩

theorem findP_ok {α : Type u} (p : α → Nat → Bool) :
    ∀ (s : List α) (i0 : Nat), (∃ j x, s[j]? = some x ∧ p x (i0 + j) = true) →
      (findP p i0 s).isOk := by
  intro s
  induction s with
  | nil =>
    rintro i0 ⟨j, x, hj, _⟩
    simp at hj
  | cons e rest ih =>
    rintro i0 ⟨j, x, hj, hp⟩
    by_cases hpe : p e i0
    · simp [findP, hpe, Except.isOk, Except.toBool]
    · simp only [findP, hpe, if_neg, Bool.false_eq_true, not_false_iff]
      match j with
      | 0 =>
        simp only [List.getElem?_cons_zero, Option.some.injEq] at hj
        subst hj
        simp only [Nat.add_zero] at hp
        simp [hp] at hpe
      | j + 1 =>
        exact ih (i0 + 1) ⟨j, x, by simpa using hj, by rw [← hp]; ring_nf⟩

theorem findIndexP_ok {α : Type u} (p : α → Nat → Bool) :
    ∀ (s : List α) (i0 : Nat), (∃ j x, s[j]? = some x ∧ p x (i0 + j) = true) →
      (findIndexP p i0 s).isOk := by
  intro s
  induction s with
  | nil =>
    rintro i0 ⟨j, x, hj, _⟩
    simp at hj
  | cons e rest ih =>
    rintro i0 ⟨j, x, hj, hp⟩
    by_cases hpe : p e i0
    · simp [findIndexP, hpe, Except.isOk, Except.toBool]
    · simp only [findIndexP, hpe, if_neg, Bool.false_eq_true, not_false_iff]
      match j with
      | 0 =>
        simp only [List.getElem?_cons_zero, Option.some.injEq] at hj
        subst hj
        simp only [Nat.add_zero] at hp
        simp [hp] at hpe
      | j + 1 =>
        exact ih (i0 + 1) ⟨j, x, by simpa using hj, by rw [← hp]; ring_nf⟩

theorem takeP_ok {α : Type u} :
    ∀ (limit : Nat) (s : List α), limit ≤ s.length → (takeP limit s).isOk := by
  intro limit
  induction limit with
  | zero => intro s _; simp [takeP, Except.isOk, Except.toBool]
  | succ limit ih =>
    intro s hs
    match s with
    | [] => simp at hs
    | e :: rest =>
      have := ih rest (by simpa using hs)
      simp only [takeP]
      cases h : takeP limit rest with
      | error msg => rw [h] at this; simp [Except.isOk, Except.toBool] at this
      | ok r => simp [Except.map, Except.isOk, Except.toBool]

theorem takeWhileP_ok {α : Type u} (p : α → Nat → Bool) :
    ∀ (s : List α) (i0 : Nat), (∃ j x, s[j]? = some x ∧ p x (i0 + j) = false) →
      (takeWhileP p i0 s).isOk := by
  intro s
  induction s with
  | nil =>
    rintro i0 ⟨j, x, hj, _⟩
    simp at hj
  | cons e rest ih =>
    rintro i0 ⟨j, x, hj, hp⟩
    by_cases hpe : p e i0
    · simp only [takeWhileP, hpe, if_pos]
      have hrest : (takeWhileP p (i0 + 1) rest).isOk := by
        match j with
        | 0 =>
          simp only [List.getElem?_cons_zero, Option.some.injEq] at hj
          subst hj
          simp [hpe] at hp
        | j + 1 =>
          exact ih (i0 + 1) ⟨j, x, by simpa using hj, by rw [← hp]; ring_nf⟩
      cases h : takeWhileP p (i0 + 1) rest with
      | error msg => rw [h] at hrest; simp [Except.isOk, Except.toBool] at hrest
      | ok r => simp [Except.map, Except.isOk, Except.toBool]
    · simp [takeWhileP, hpe, Except.isOk, Except.toBool]

/-- C8: over a cursor that raises when pulled past its available elements,
none of the six short-circuiting operations raises when its result is
determined by the available elements: all and takeWhile stop at a failing
element, any, find and findIndex stop at a satisfying element, and take
stops once its limit is reached. -/
theorem short_circuit_spec {α : Type u} (p q : α → Nat → Bool) (s : List α) (lim : Nat)
    (hfail : ∃ j x, s[j]? = some x ∧ p x j = false)
    (hsat : ∃ j x, s[j]? = some x ∧ q x j = true)
    (hlim : lim ≤ s.length) :
    (allP p 0 s).isOk ∧ (anyP q 0 s).isOk ∧ (findP q 0 s).isOk ∧
    (findIndexP q 0 s).isOk ∧ (takeP lim s).isOk ∧ (takeWhileP p 0 s).isOk := by
  obtain ⟨j, x, hj, hp⟩ := hfail
  obtain ⟨k, y, hk, hq⟩ := hsat
  refine ⟨allP_ok p s 0 ⟨j, x, hj, by simpa using hp⟩,
    anyP_ok q s 0 ⟨k, y, hk, by simpa using hq⟩,
    findP_ok q s 0 ⟨k, y, hk, by simpa using hq⟩,
    findIndexP_ok q s 0 ⟨k, y, hk, by simpa using hq⟩,
    takeP_ok lim s hlim,
    takeWhileP_ok p s 0 ⟨j, x, hj, by simpa using hp⟩⟩

/-- C8 witness: s = [1,2,3], p fails at the third element, q holds at the
second, limit 2. -/
theorem short_circuit_spec_witness :
    (∃ (j x : Nat), ([1, 2, 3] : List Nat)[j]? = some x ∧ decide (x < 3) = false) ∧
    (∃ (j x : Nat), ([1, 2, 3] : List Nat)[j]? = some x ∧ decide (x = 2) = true) ∧
    2 ≤ ([1, 2, 3] : List Nat).length ∧
    ((allP (fun x _ => decide (x < 3)) 0 [1, 2, 3]).isOk ∧
      (anyP (fun x _ => decide (x = 2)) 0 [1, 2, 3]).isOk ∧
      (findP (fun x _ => decide (x = 2)) 0 [1, 2, 3]).isOk ∧
      (findIndexP (fun x _ => decide (x = 2)) 0 [1, 2, 3]).isOk ∧
      (takeP 2 [1, 2, 3]).isOk ∧
      (takeWhileP (fun x _ => decide (x < 3)) 0 [1, 2, 3]).isOk) :=
  ⟨⟨2, 3, by decide, by decide⟩, ⟨1, 2, by decide, by decide⟩, by decide,
    short_circuit_spec (fun x _ => decide (x < 3)) (fun x _ => decide (x = 2)) [1, 2, 3] 2
      ⟨2, 3, by decide, by decide⟩ ⟨1, 2, by decide, by decide⟩ (by decide)⟩

/-! ## window (src/main.js lines 226-252)

The implementation first pulls size elements into a buffer; if the input
runs out first it returns empty.  It then treats the buffer as a circular
buffer: for each further element it overwrites the oldest slot (at index
front), advances front modulo size, and emits the rotation
arr.slice(front) ++ arr.slice(0, front). -/

/-- The circular-buffer loop of window. -/
def windowLoop {α : Type u} (size : Nat) : List α → Nat → List α → List (List α)
  | _, _, [] => []
  | arr, front, e :: rest =>
    let arr2 := arr.set front e
    let front2 := (front + 1) % size
    (arr2.drop front2 ++ arr2.take front2) :: windowLoop size arr2 front2 rest

/-- window: size 0 is rejected, inputs shorter than size yield nothing,
otherwise the first window is the filled buffer and the loop slides it
over the remaining elements. -/
def window {α : Type u} (s : List α) (size : Nat) : Except String (List (List α)) :=
  if size = 0 then .error "Cannot yield sliding windows of size 0"
  else
    let arr := s.take size
    if arr.length < size then .ok []
    else .ok (arr :: windowLoop size arr 0 (s.drop size))

/-- Reference sliding: drop the oldest element of the current window and
append the new one, emitting each successive window. -/
def slide {α : Type u} : List α → List α → List (List α)
  | _, [] => []
  | cur, e :: rest => (cur.tail ++ [e]) :: slide (cur.tail ++ [e]) rest

theorem set_append_cons {α : Type u} :
    ∀ (v : List α) (w e : α) (u : List α), (v ++ w :: u).set v.length e = v ++ e :: u := by
  intro v w e u
  induction v with
  | nil => rfl
  | cons a v ih => simp [ih]

theorem take_append_one {α : Type u} :
    ∀ (l₁ : List α) (x : α) (l₂ : List α),
      (l₁ ++ x :: l₂).take (l₁.length + 1) = l₁ ++ [x] := by
  intro l₁ x l₂
  induction l₁ with
  | nil => rfl
  | cons a l ih => simpa using ih

/-- The circular buffer arr with front pointer v.length, where arr
decomposes as v ++ u with u the oldest part, behaves like sliding the
window u ++ v. -/
theorem windowLoop_slide {α : Type u} (size : Nat) :
    ∀ (rest u v : List α), u ≠ [] → v.length + u.length = size →
      windowLoop size (v ++ u) v.length rest = slide (u ++ v) rest := by
  intro rest
  induction rest with
  | nil => intro u v _ _; rfl
  | cons e rest ih =>
    intro u v hu hlen
    obtain ⟨w, u', rfl⟩ := List.exists_cons_of_ne_nil hu
    simp only [windowLoop, set_append_cons]
    by_cases hu' : u' = []
    · subst hu'
      have hsz : v.length + 1 = size := by simpa using hlen
      have hfront : (v.length + 1) % size = 0 := by rw [hsz, Nat.mod_self]
      have hrec := ih (v ++ [e]) []
        (by simp)
        (by simp only [List.length_nil, List.length_append, List.length_singleton]; omega)
      simp only [List.nil_append, List.length_nil, List.append_nil] at hrec
      simp only [hfront, List.drop_zero, List.take_zero, List.append_nil, slide,
        List.singleton_append, List.tail_cons]
      rw [hrec]
    · have hlt : v.length + 1 < size := by
        have hne : u'.length ≠ 0 := by simpa using hu'
        simp only [List.length_cons] at hlen
        omega
      have hfront : (v.length + 1) % size = v.length + 1 := Nat.mod_eq_of_lt hlt
      have hdrop : (v ++ e :: u').drop (v.length + 1) = u' := by
        rw [show v ++ e :: u' = (v ++ [e]) ++ u' by simp,
          show v.length + 1 = (v ++ [e]).length by simp, List.drop_left]
      have htake : (v ++ e :: u').take (v.length + 1) = v ++ [e] := by
        rw [show v ++ e :: u' = (v ++ [e]) ++ u' by simp,
          show v.length + 1 = (v ++ [e]).length by simp, List.take_left]
      have hrec : windowLoop size (v ++ e :: u') (v.length + 1) rest
          = slide (u' ++ (v ++ [e])) rest := by
        have h2 : (v ++ [e]).length + u'.length = size := by
          simp only [List.length_append, List.length_singleton]
          simp only [List.length_cons] at hlen
          omega
        have h3 := ih u' (v ++ [e]) hu' h2
        rw [show (v ++ [e]) ++ u' = v ++ e :: u' by simp,
          show (v ++ [e]).length = v.length + 1 by simp] at h3
        exact h3
      simp only [hfront, hdrop, htake, hrec, slide, List.cons_append, List.tail_cons]
      simp [List.append_assoc]

/-- Sliding a full window of length k over the rest produces, for each j,
the slice of the concatenated sequence starting at j + 1. -/
theorem slide_eq {α : Type u} (k : Nat) (hk : 0 < k) :
    ∀ (rest u : List α), u.length = k →
      slide u rest
        = (List.range rest.length).map (fun j => ((u ++ rest).drop (j + 1)).take k) := by
  intro rest
  induction rest with
  | nil => intro u _; simp [slide]
  | cons e rest ih =>
    intro u hu
    cases u with
    | nil =>
      exfalso
      simp at hu
      omega
    | cons a ut =>
      have hut : ut.length = k - 1 := by simp at hu; omega
      have ih2 := ih (ut ++ [e]) (by simp [hut]; omega)
      simp only [slide, List.tail_cons]
      rw [ih2]
      simp only [List.length_cons]
      rw [List.range_succ_eq_map, List.map_cons, List.map_map]
      congr 1
      · rw [show ((a :: ut) ++ e :: rest).drop (0 + 1) = ut ++ e :: rest by simp]
        rw [show k = ut.length + 1 by omega]
        rw [take_append_one]
      · apply List.map_congr_left
        intro j _
        simp only [Function.comp]
        congr 1
        rw [show ((a :: ut) ++ e :: rest).drop (Nat.succ j + 1)
              = (ut ++ e :: rest).drop (j + 1) by simp [List.drop_succ_cons]]
        rw [show (ut ++ [e]) ++ rest = ut ++ e :: rest by simp]

/-- C5: window(s, k) for 1 <= k <= n produces exactly n - k + 1 windows,
the i-th being the contiguous slice of length k starting at i; inputs
shorter than the window size produce an empty result, and size 0 is an
error. -/
theorem window_spec {α : Type u} (s t : List α) (k m : Nat)
    (hk : 0 < k) (hks : k ≤ s.length) (hm : 0 < m) (hmt : t.length < m) :
    window t m = .ok [] ∧
    window s 0 = .error "Cannot yield sliding windows of size 0" ∧
    ∃ r, window s k = .ok r ∧
      r.length = s.length - k + 1 ∧
      r = (List.range (s.length - k + 1)).map (fun i => (s.drop i).take k) ∧
      ∀ g ∈ r, g.length = k := by
  refine ⟨?_, rfl, ?_⟩
  · have hlen : (t.take m).length < m := by
      simp only [List.length_take]
      omega
    simp [window, Nat.pos_iff_ne_zero.mp hm, hlen, hmt]
  · have harr : (s.take k).length = k := by
      simp only [List.length_take]
      omega
    have hne : s.take k ≠ [] := by
      intro hcon
      rw [hcon] at harr
      simp at harr
      omega
    have hloop : windowLoop k (s.take k) 0 (s.drop k) = slide (s.take k) (s.drop k) := by
      have := windowLoop_slide k (s.drop k) (s.take k) [] hne (by simpa using harr)
      simpa using this
    have hslide := slide_eq k hk (s.drop k) (s.take k) harr
    rw [List.take_append_drop] at hslide
    have hr : window s k
        = .ok ((s.take k) :: (List.range (s.length - k)).map
            (fun j => (s.drop (j + 1)).take k)) := by
      unfold window
      rw [if_neg (by omega), if_neg (by omega)]
      rw [hloop, hslide, List.length_drop]
    have hmap : (s.take k) :: (List.range (s.length - k)).map
          (fun j => (s.drop (j + 1)).take k)
        = (List.range (s.length - k + 1)).map (fun i => (s.drop i).take k) := by
      rw [List.range_succ_eq_map, List.map_cons, List.map_map]
      congr 1
    refine ⟨_, hr, ?_, ?_, ?_⟩
    · simp
    · exact hmap
    · intro g hg
      rw [hmap] at hg
      obtain ⟨i, hi, rfl⟩ := List.mem_map.mp hg
      rw [List.mem_range] at hi
      simp only [List.length_take, List.length_drop]
      omega

/-- C5 witness: windows of size 2 over [1,2,3,4,5], plus the short-input
and zero-size cases. -/
theorem window_spec_witness :
    (0 < 2 ∧ 2 ≤ ([1, 2, 3, 4, 5] : List Nat).length ∧
      0 < 3 ∧ ([9] : List Nat).length < 3) ∧
    (window ([9] : List Nat) 3 = .ok [] ∧
    window ([1, 2, 3, 4, 5] : List Nat) 0
        = .error "Cannot yield sliding windows of size 0" ∧
    ∃ r, window ([1, 2, 3, 4, 5] : List Nat) 2 = .ok r ∧
      r.length = ([1, 2, 3, 4, 5] : List Nat).length - 2 + 1 ∧
      r = (List.range (([1, 2, 3, 4, 5] : List Nat).length - 2 + 1)).map
            (fun i => (([1, 2, 3, 4, 5] : List Nat).drop i).take 2) ∧
      ∀ g ∈ r, g.length = 2) :=
  ⟨⟨by decide, by decide, by decide, by decide⟩,
    window_spec [1, 2, 3, 4, 5] [9] 2 3 (by decide) (by decide) (by decide) (by decide)⟩

end Enum
